import Mathlib

/-!
Verification of the `orgzr-mealz` meal-planning core.

This file shallowly embeds `crates/orgzr-mealz/src/lib.rs`: the card store
(`MealzPlug` with its CRUD operations), the candidate filter
(`find_candidates`), the inventory expander and constrained scheduler
(`build_raw_schedule`), and the plan finalizer (`build_idea_plan` /
`generate_plan`).  Rust `HashSet<String>` values are modelled as
`List String` together with decidable membership / subset / disjointness
predicates (the only operations the code performs on them); `u8` / `u64`
are modelled as `Nat` (the scheduler's counters are bounded by the
requested meal count, which a `u8` bounds by 255, so no wrap-around is
reachable); the random shuffle is modelled as an explicit function
parameter, with theorems quantifying over every permutation of the
expanded inventory.
-/

namespace Orgzr

/-- `Card` struct from the source: id, name, tag set, ingredient set,
max batch size. -/
structure Card where
  id : Nat
  name : String
  tags : List String
  ingredients : List String
  max_batch_size : Nat
  deriving DecidableEq

/-- `FilterMode` enum (`All` / `Any`, default `Any`). -/
inductive FilterMode where
  | All
  | Any
  deriving DecidableEq

/-- `BatchMode` enum (`Allow` / `Only` / `Prevent`, default `Allow`). -/
inductive BatchMode where
  | Allow
  | Only
  | Prevent
  deriving DecidableEq

/-- `CardFilters` struct from the source. -/
structure CardFilters where
  name_contains : String
  tag_filters : List String
  tag_mode : FilterMode
  ingredient_filters : List String
  ingredient_mode : FilterMode
  allow_jokers : Bool
  batch_mode : BatchMode
  deriving DecidableEq

/-- The `Default` instance the Rust `#[derive(Debug, Default)]` produces for
`CardFilters`: empty string, empty sets, `Any` modes, `allow_jokers = false`,
`batch_mode = Allow`. -/
def defaultFilters : CardFilters :=
  { name_contains := ""
    tag_filters := []
    tag_mode := .Any
    ingredient_filters := []
    ingredient_mode := .Any
    allow_jokers := false
    batch_mode := .Allow }

/-- `PlanConstraints` struct from the source. -/
structure PlanConstraints where
  number_of_meals : Nat
  filters : CardFilters
  no_consecutive : Bool
  max_repeats_per_plan : Nat
  deriving DecidableEq

/-- `DaySlot` enum from the source (fourteen fixed slots). -/
inductive DaySlot where
  | MondayLunch | MondayDinner
  | TuesdayLunch | TuesdayDinner
  | WednesdayLunch | WednesdayDinner
  | ThursdayLunch | ThursdayDinner
  | FridayLunch | FridayDinner
  | SaturdayLunch | SaturdayDinner
  | SundayLunch | SundayDinner
  deriving DecidableEq

/-- `PlanSchedule` enum: idea list, or the (never produced) weekly map. -/
inductive PlanSchedule where
  | Ideas (cards : List Card)
  | Weekly (slots : List (DaySlot × Card))
  deriving DecidableEq

/-- `MealPlan` struct. -/
structure MealPlan where
  schedule : PlanSchedule
  deriving DecidableEq

/-- `GenerationResult` struct: the plan plus ordered warnings. -/
structure GenerationResult where
  plan : MealPlan
  warnings : List String
  deriving DecidableEq

/-- `MealzPlug` struct: card list plus the next identifier. -/
structure MealzPlug where
  cards : List Card
  next_id : Nat
  deriving DecidableEq

/-- `MealzPlug::new()`. -/
def MealzPlug.new : MealzPlug := { cards := [], next_id := 1 }

-- --- Set operations on `List String`, mirroring the `HashSet` calls ---

/-- `HashSet::is_subset`: every element of `a` is in `b`. -/
def subsetB (a b : List String) : Bool := decide (∀ x ∈ a, x ∈ b)

/-- `HashSet::is_disjoint`: no element of `a` is in `b`. -/
def disjointB (a b : List String) : Bool := decide (∀ x ∈ a, x ∉ b)

-- --- Substring search (Rust `str::contains`) on char lists ---

/-- `startsWithChars pat s` is true when `pat` is an initial segment of `s`. -/
def startsWithChars : List Char → List Char → Bool
  | [], _ => true
  | _ :: _, [] => false
  | p :: ps, c :: cs => p == c && startsWithChars ps cs

/-- `strHasSub pat s` is true when `pat` occurs contiguously inside `s`
(Rust `str::contains`). -/
def strHasSub (pat : List Char) : List Char → Bool
  | [] => pat.isEmpty
  | c :: rest => startsWithChars pat (c :: rest) || strHasSub pat rest

-- --- CRUD methods ---

/-- The `format!("Card {} not found", card_id)` message. -/
def notFoundMsg (card_id : Nat) : String :=
  "Card " ++ toString card_id ++ " not found"

/-- `MealzPlug::add_card`: build the card with the next identifier
(`max_batch_size` defaulting to 1 when omitted), push it, bump the id.
The Rust method returns `Result` but never errs. -/
def MealzPlug.add_card (m : MealzPlug) (name : String)
    (tags ingredients : List String) (max_batch_size : Option Nat) :
    Except String Card × MealzPlug :=
  let new_card : Card :=
    { id := m.next_id
      name := name
      tags := tags
      ingredients := ingredients
      max_batch_size := max_batch_size.getD 1 }
  (.ok new_card, { cards := m.cards ++ [new_card], next_id := m.next_id + 1 })

/-- `MealzPlug::list_cards`. -/
def MealzPlug.list_cards (m : MealzPlug) : List Card := m.cards

/-- The four conditional field replacements of `update_card`: each supplied
(`Some`) field overwrites, the rest stay. -/
def applyUpdate (card : Card) (new_name : Option String)
    (new_tags new_ingredients : Option (List String))
    (new_max_batch_size : Option Nat) : Card :=
  { card with
    name := new_name.getD card.name
    tags := new_tags.getD card.tags
    ingredients := new_ingredients.getD card.ingredients
    max_batch_size := new_max_batch_size.getD card.max_batch_size }

/-- `iter_mut().find(|c| c.id == card_id)` followed by an in-place mutation
`f`: rewrite the first card with the given identifier, return it and the
updated list, or `none` when no card matches. -/
def updateFirst (card_id : Nat) (f : Card → Card) :
    List Card → Option (Card × List Card)
  | [] => none
  | c :: rest =>
    if c.id = card_id then
      some (f c, f c :: rest)
    else
      match updateFirst card_id f rest with
      | some (r, rest2) => some (r, c :: rest2)
      | none => none

/-- `MealzPlug::update_card`: find the card by identifier and replace only the
supplied fields; `NotFound` error (and an untouched store) otherwise. -/
def MealzPlug.update_card (m : MealzPlug) (card_id : Nat)
    (new_name : Option String) (new_tags new_ingredients : Option (List String))
    (new_max_batch_size : Option Nat) : Except String Card × MealzPlug :=
  match updateFirst card_id
      (fun c => applyUpdate c new_name new_tags new_ingredients new_max_batch_size)
      m.cards with
  | some (card, cards2) => (.ok card, { m with cards := cards2 })
  | none => (.error (notFoundMsg card_id), m)

/-- `MealzPlug::get_card`. -/
def MealzPlug.get_card (m : MealzPlug) (card_id : Nat) : Except String Card :=
  match m.cards.find? (fun c => c.id == card_id) with
  | some c => .ok c
  | none => .error (notFoundMsg card_id)

-- --- Candidate filter ---

/-- The filter closure of `find_candidates`: the conjunction of the name,
batch, tag, ingredient and joker predicates, exactly as written in the
source. -/
def cardMatches (filters : CardFilters) (card : Card) : Bool :=
  let name_match := filters.name_contains.isEmpty
    || strHasSub filters.name_contains.toLower.data card.name.toLower.data
  let batchable_match :=
    match filters.batch_mode with
    | .Allow => true
    | .Only => decide (1 < card.max_batch_size)
    | .Prevent => decide (card.max_batch_size ≤ 1)
  let tags_match := filters.tag_filters.isEmpty
    || (match filters.tag_mode with
        | .All => subsetB filters.tag_filters card.tags
        | .Any => !disjointB filters.tag_filters card.tags)
  let ingredients_match := filters.ingredient_filters.isEmpty
    || (match filters.ingredient_mode with
        | .All => subsetB filters.ingredient_filters card.ingredients
        | .Any => !disjointB filters.ingredient_filters card.ingredients)
  let joker_match := filters.allow_jokers || !(decide ("joker" ∈ card.tags))
  name_match && batchable_match && tags_match && ingredients_match && joker_match

/-- `MealzPlug::find_candidates`. -/
def MealzPlug.find_candidates (m : MealzPlug) (filters : CardFilters) :
    List Card :=
  m.cards.filter (cardMatches filters)

-- --- Constrained scheduler ---

/-- The fixed fallback warning string of `build_raw_schedule`. -/
def fallbackMsg : String :=
  "Could not satisfy all constraints (e.g., repetition). The remaining plan may have duplicates."

/-- The truncation warning `format!("Ran out of meal portions. Plan stopped at {} meals.", n)`. -/
def truncMsg (n : Nat) : String :=
  "Ran out of meal portions. Plan stopped at " ++ toString n ++ " meals."

/-- The inventory expansion: each candidate contributes `max_batch_size`
copies of itself (`flat_map(|card| vec![card.clone(); card.max_batch_size])`). -/
def expandInventory (candidates : List Card) : List Card :=
  candidates.flatMap (fun card => List.replicate card.max_batch_size card)

/-- The selection closure inside `build_raw_schedule`'s `position` call:
a card is acceptable when it is not a forbidden consecutive repeat and not
over the per-plan repeat limit. -/
def schedOk (cs : PlanConstraints) (counts : Nat → Nat)
    (schedule : List Card) (card : Card) : Bool :=
  let consecutive := cs.no_consecutive &&
    (match schedule.getLast? with
     | some last => decide (last.id = card.id)
     | none => false)
  let over_limit := decide (0 < cs.max_repeats_per_plan) &&
    decide (cs.max_repeats_per_plan ≤ counts card.id)
  !consecutive && !over_limit

/-- `inventory.iter().position(p)` followed by `inventory.remove(index)`:
extract the first element satisfying `p`, keeping the rest in order. -/
def extractFirst {α : Type} (p : α → Bool) : List α → Option (α × List α)
  | [] => none
  | x :: xs =>
    if p x then some (x, xs)
    else
      match extractFirst p xs with
      | some (y, ys) => some (y, x :: ys)
      | none => none

/-- `*plan_counts.entry(i).or_insert(0) += 1`. -/
def bump (counts : Nat → Nat) (i : Nat) : Nat → Nat :=
  fun j => if j = i then counts j + 1 else counts j

/-- The `while schedule.len() < constraints.number_of_meals` loop of
`build_raw_schedule`, with fuel `remaining = number_of_meals - schedule.len()`
(each iteration pushes exactly one card, so the fuel tracks the loop guard
exactly).  On empty inventory the truncation warning is pushed and the loop
breaks; otherwise the first constraint-satisfying inventory entry is moved to
the schedule, falling back to position 0 (with the fallback warning) when no
entry satisfies the constraints. -/
def schedLoop (cs : PlanConstraints) :
    Nat → List Card → (Nat → Nat) → List Card → List String →
    List Card × List String
  | 0, _, _, schedule, warnings => (schedule, warnings)
  | remaining + 1, inventory, counts, schedule, warnings =>
    match inventory with
    | [] => (schedule, warnings ++ [truncMsg schedule.length])
    | c :: rest =>
      match extractFirst (schedOk cs counts schedule) (c :: rest) with
      | some (chosen, inventory2) =>
        schedLoop cs remaining inventory2 (bump counts chosen.id)
          (schedule ++ [chosen]) warnings
      | none =>
        schedLoop cs remaining rest (bump counts c.id)
          (schedule ++ [c]) (warnings ++ [fallbackMsg])

/-- `MealzPlug::build_raw_schedule`, with the RNG shuffle abstracted as the
function `shuffle` applied to the expanded inventory.  The Rust method
returns `Result` but never errs, so the pair is returned directly. -/
def build_raw_schedule (shuffle : List Card → List Card)
    (candidates : List Card) (cs : PlanConstraints) :
    List Card × List String :=
  let inventory := shuffle (expandInventory candidates)
  schedLoop cs cs.number_of_meals inventory (fun _ => 0) [] []

-- --- Plan finalizer ---

/-- The finalizer loop of `build_idea_plan`: keep a card when it is not
tagged `"joker"` and its identifier was not kept before
(`!card.tags.contains("joker") && seen_ids.insert(card.id)`). -/
def dedupIdeas : List Card → List Nat → List Card
  | [], _ => []
  | card :: rest, seen_ids =>
    if !(decide ("joker" ∈ card.tags)) && !(decide (card.id ∈ seen_ids)) then
      card :: dedupIdeas rest (card.id :: seen_ids)
    else
      dedupIdeas rest seen_ids

/-- The fixed jokers/duplicates warning of `build_idea_plan`. -/
def dedupMsg : String :=
  "Note: Jokers and duplicates have been removed from the final idea list."

/-- The tail of `build_idea_plan` after `build_raw_schedule` returns:
dedup the raw schedule, append the jokers/duplicates warning when entries
were dropped, wrap as an idea-list result. -/
def finalizeIdeas (full_schedule : List Card × List String) :
    GenerationResult :=
  let final_ideas := dedupIdeas full_schedule.1 []
  let warnings :=
    if final_ideas.length < full_schedule.1.length then
      full_schedule.2 ++ [dedupMsg]
    else full_schedule.2
  { plan := { schedule := .Ideas final_ideas }, warnings := warnings }

/-- `MealzPlug::build_idea_plan`. -/
def build_idea_plan (shuffle : List Card → List Card)
    (candidates : List Card) (cs : PlanConstraints) :
    Except String GenerationResult :=
  .ok (finalizeIdeas (build_raw_schedule shuffle candidates cs))

/-- `MealzPlug::generate_plan`: filter, abort on an empty candidate set,
otherwise build the idea plan. -/
def MealzPlug.generate_plan (m : MealzPlug) (shuffle : List Card → List Card)
    (cs : PlanConstraints) : Except String GenerationResult :=
  let candidates := m.find_candidates cs.filters
  if candidates.isEmpty then
    .error "No cards match the specified filters."
  else
    build_idea_plan shuffle candidates cs

-- --- Derived measures and spec-side predicates ---

/-- Number of copies of identifier `i` in a card list. -/
def countId (l : List Card) (i : Nat) : Nat :=
  l.countP (fun c => decide (c.id = i))

/-- Total inventory size: the sum of the candidates' max batch sizes. -/
def sumBatch (candidates : List Card) : Nat :=
  (candidates.map Card.max_batch_size).sum

/-- Spec-side substring relation: `pat` occurs contiguously inside `s`. -/
def SpecSubstrOf (pat s : String) : Prop :=
  ∃ l r, s.data = l ++ pat.data ++ r

/-- The Candidate Filter contract as the spec states it: the conjunction of
the five predicate families (name, batch, tags, ingredients, jokers). -/
def specFilterPred (f : CardFilters) (card : Card) : Prop :=
  (f.name_contains = "" ∨ SpecSubstrOf f.name_contains.toLower card.name.toLower)
  ∧ (match f.batch_mode with
     | .Allow => True
     | .Only => 1 < card.max_batch_size
     | .Prevent => card.max_batch_size ≤ 1)
  ∧ (f.tag_filters = [] ∨
      match f.tag_mode with
      | .All => ∀ t ∈ f.tag_filters, t ∈ card.tags
      | .Any => ∃ t ∈ f.tag_filters, t ∈ card.tags)
  ∧ (f.ingredient_filters = [] ∨
      match f.ingredient_mode with
      | .All => ∀ t ∈ f.ingredient_filters, t ∈ card.ingredients
      | .Any => ∃ t ∈ f.ingredient_filters, t ∈ card.ingredients)
  ∧ (f.allow_jokers = true ∨ "joker" ∉ card.tags)

/-- The fully permissive filter specification: empty name substring, empty
tag and ingredient sets (any modes), jokers allowed, batch mode `Allow`. -/
def permissiveFilters (tm im : FilterMode) : CardFilters :=
  { name_contains := ""
    tag_filters := []
    tag_mode := tm
    ingredient_filters := []
    ingredient_mode := im
    allow_jokers := true
    batch_mode := .Allow }

-- --- The concrete "Tacos" scenario of the spec ---

/-- The single card of the spec's scenario: id 1, name "Tacos", no tags,
max batch size 2. -/
def tacosCard : Card :=
  { id := 1, name := "Tacos", tags := [], ingredients := [], max_batch_size := 2 }

/-- A store holding exactly the Tacos card. -/
def tacosStore : MealzPlug := { cards := [tacosCard], next_id := 2 }

/-- The scenario's constraints: 3 meals, `no_consecutive = true`, every other
field at its Rust `Default` value. -/
def tacosConstraints : PlanConstraints :=
  { number_of_meals := 3
    filters := defaultFilters
    no_consecutive := true
    max_repeats_per_plan := 0 }

/-- What `generate_plan` actually returns on the Tacos scenario. -/
def tacosExpected : GenerationResult :=
  { plan := { schedule := .Ideas [tacosCard] }
    warnings := [fallbackMsg, truncMsg 2, dedupMsg] }

-- --- Further concrete values used to exercise the theorems ---

/-- A card carrying the `"joker"` tag. -/
def jokerCard : Card :=
  { id := 2, name := "Joker", tags := ["joker"], ingredients := [],
    max_batch_size := 1 }

/-- A second ordinary card, distinct from the Tacos card. -/
def pastaCard : Card :=
  { id := 3, name := "Pasta", tags := [], ingredients := [],
    max_batch_size := 1 }

/-- A card with max batch size 0. -/
def zeroCard : Card :=
  { id := 7, name := "Zero", tags := [], ingredients := [],
    max_batch_size := 0 }

/-- A store holding exactly the zero-batch card. -/
def zeroStore : MealzPlug := { cards := [zeroCard], next_id := 8 }

/-- Filters requiring the tag `"vegan"` in ALL mode. -/
def veganFilters : CardFilters :=
  { defaultFilters with tag_filters := ["vegan"], tag_mode := .All }

/-- Constraints asking for 2 meals under the vegan filter. -/
def veganConstraints : PlanConstraints :=
  { number_of_meals := 2
    filters := veganFilters
    no_consecutive := false
    max_repeats_per_plan := 1 }

/-- Constraints: 1 meal, no ordering constraint, at most 1 repeat. -/
def simpleConstraints : PlanConstraints :=
  { number_of_meals := 1
    filters := defaultFilters
    no_consecutive := false
    max_repeats_per_plan := 1 }

/-- Constraints: 2 meals, no consecutive repeats, unlimited repeats. -/
def pairConstraints : PlanConstraints :=
  { number_of_meals := 2
    filters := defaultFilters
    no_consecutive := true
    max_repeats_per_plan := 0 }

-- --- Lemmas about `extractFirst` ---

theorem extractFirst_spec {α : Type} {p : α → Bool} :
    ∀ {l : List α} {x : α} {l' : List α}, extractFirst p l = some (x, l') →
      p x = true ∧ ∃ s t, (∀ y ∈ s, p y = false) ∧ l = s ++ x :: t ∧ l' = s ++ t := by
  intro l
  induction l with
  | nil => intro x l' h; simp [extractFirst] at h
  | cons a as ih =>
    intro x l' h
    by_cases hp : p a = true
    · simp only [extractFirst, hp, if_pos, Option.some.injEq, Prod.mk.injEq] at h
      obtain ⟨hx, hl⟩ := h
      subst hx; subst hl
      exact ⟨hp, [], as, by simp, rfl, rfl⟩
    · simp only [extractFirst, hp, if_neg, Bool.not_eq_true] at h
      cases heq : extractFirst p as with
      | none => rw [heq] at h; exact absurd h (by simp)
      | some pr =>
        obtain ⟨y, ys⟩ := pr
        rw [heq] at h
        simp only [Option.some.injEq, Prod.mk.injEq] at h
        obtain ⟨hx, hl⟩ := h
        subst hx; subst hl
        obtain ⟨hpy, s, t, hs, happ, hrest⟩ := ih heq
        refine ⟨hpy, a :: s, t, ?_, by simp [happ], by simp [hrest]⟩
        intro z hz
        rcases List.mem_cons.mp hz with hz | hz
        · subst hz; simpa using hp
        · exact hs z hz

theorem extractFirst_eq_none {α : Type} {p : α → Bool} :
    ∀ {l : List α}, extractFirst p l = none ↔ ∀ x ∈ l, p x = false := by
  intro l
  induction l with
  | nil => simp [extractFirst]
  | cons a as ih =>
    by_cases hp : p a = true
    · simp [extractFirst, hp]
    · rw [Bool.not_eq_true] at hp
      cases heq : extractFirst p as with
      | some pr =>
        obtain ⟨y, ys⟩ := pr
        obtain ⟨hpy, s, t, _, happ, _⟩ := extractFirst_spec heq
        constructor
        · intro h; exact absurd h (by simp [extractFirst, hp, heq])
        · intro hall
          have hy : y ∈ as := by
            rw [happ]; exact List.mem_append_right _ (List.mem_cons_self _ _)
          have := hall y (List.mem_cons_of_mem a hy)
          rw [this] at hpy; cases hpy
      | none =>
        constructor
        · intro _ x hx
          rcases List.mem_cons.mp hx with h | h
          · subst h; exact hp
          · exact (ih.mp heq) x h
        · intro _
          simp [extractFirst, hp, heq]


theorem extractFirst_some_length {α : Type} {p : α → Bool} {l : List α}
    {x : α} {l' : List α} (h : extractFirst p l = some (x, l')) :
    l.length = l'.length + 1 := by
  obtain ⟨_, s, t, _, happ, hrest⟩ := extractFirst_spec h
  subst happ; subst hrest
  simp
  omega

-- --- Lemmas about `countId` ---

theorem countId_append (l₁ l₂ : List Card) (i : Nat) :
    countId (l₁ ++ l₂) i = countId l₁ i + countId l₂ i := by
  simp [countId, List.countP_append]

theorem countId_singleton (c : Card) (i : Nat) :
    countId [c] i = if c.id = i then 1 else 0 := by
  by_cases h : c.id = i <;> simp [countId, List.countP, List.countP.go, h]

theorem countId_perm {l₁ l₂ : List Card} (h : List.Perm l₁ l₂) (i : Nat) :
    countId l₁ i = countId l₂ i := by
  simp [countId, h.countP_eq]

theorem countId_replicate (n : Nat) (c : Card) (i : Nat) :
    countId (List.replicate n c) i = if c.id = i then n else 0 := by
  induction n with
  | zero => simp [countId]
  | succ k ih =>
    have h1 : List.replicate (k + 1) c = [c] ++ List.replicate k c := rfl
    rw [h1, countId_append, countId_singleton, ih]
    by_cases h : c.id = i
    · simp [h]
      omega
    · simp [h]

-- --- Structural lemmas about the scheduler loop ---

theorem schedLoop_warnings_eq (cs : PlanConstraints) :
    ∀ (rem : Nat) (inv : List Card) (counts : Nat → Nat) (sched : List Card)
      (warns : List String),
      schedLoop cs rem inv counts sched warns =
        ((schedLoop cs rem inv counts sched []).1,
          warns ++ (schedLoop cs rem inv counts sched []).2) := by
  intro rem
  induction rem with
  | zero => intros; simp [schedLoop]
  | succ n ih =>
    intro inv counts sched warns
    cases inv with
    | nil => simp [schedLoop]
    | cons c rest =>
      simp only [schedLoop]
      cases h : extractFirst (schedOk cs counts sched) (c :: rest) with
      | some pr =>
        obtain ⟨chosen, inv2⟩ := pr
        dsimp only
        rw [ih inv2 (bump counts chosen.id) (sched ++ [chosen]) warns]
      | none =>
        dsimp only
        rw [ih rest (bump counts c.id) (sched ++ [c]) (warns ++ [fallbackMsg]),
          ih rest (bump counts c.id) (sched ++ [c]) ([] ++ [fallbackMsg])]
        simp

theorem schedLoop_length (cs : PlanConstraints) :
    ∀ (rem : Nat) (inv : List Card) (counts : Nat → Nat) (sched : List Card)
      (warns : List String),
      (schedLoop cs rem inv counts sched warns).1.length
        = sched.length + min rem inv.length := by
  intro rem
  induction rem with
  | zero => intros; simp [schedLoop]
  | succ n ih =>
    intro inv counts sched warns
    cases inv with
    | nil => simp [schedLoop]
    | cons c rest =>
      simp only [schedLoop]
      cases h : extractFirst (schedOk cs counts sched) (c :: rest) with
      | some pr =>
        obtain ⟨chosen, inv2⟩ := pr
        have hlen := extractFirst_some_length h
        dsimp only
        rw [ih inv2 (bump counts chosen.id) (sched ++ [chosen]) warns]
        simp at hlen ⊢
        omega
      | none =>
        dsimp only
        rw [ih rest (bump counts c.id) (sched ++ [c]) (warns ++ [fallbackMsg])]
        simp
        omega

theorem fallbackMsg_ne_truncMsg (n : Nat) : fallbackMsg ≠ truncMsg n := by
  intro h
  have h2 := congrArg (fun s => s.data.head?) h
  simp [truncMsg, fallbackMsg, String.data_append] at h2

theorem schedLoop_warnings_struct (cs : PlanConstraints) :
    ∀ (rem : Nat) (inv : List Card) (counts : Nat → Nat) (sched : List Card),
      ∃ fb : List String, (∀ w ∈ fb, w = fallbackMsg) ∧
        (schedLoop cs rem inv counts sched []).2 =
          (if inv.length < rem then
            fb ++ [truncMsg (sched.length + inv.length)]
          else fb) := by
  intro rem
  induction rem with
  | zero => intro inv counts sched; exact ⟨[], by simp, by simp [schedLoop]⟩
  | succ n ih =>
    intro inv counts sched
    cases inv with
    | nil => exact ⟨[], by simp, by simp [schedLoop]⟩
    | cons c rest =>
      simp only [schedLoop]
      cases h : extractFirst (schedOk cs counts sched) (c :: rest) with
      | some pr =>
        obtain ⟨chosen, inv2⟩ := pr
        dsimp only
        obtain ⟨fb, hfb, heq⟩ := ih inv2 (bump counts chosen.id) (sched ++ [chosen])
        refine ⟨fb, hfb, ?_⟩
        rw [heq]
        have hlen := extractFirst_some_length h
        simp only [List.length_cons] at hlen
        have harg : (sched ++ [chosen]).length + inv2.length
            = sched.length + (c :: rest).length := by
          simp only [List.length_append, List.length_cons, List.length_nil]
          omega
        rw [harg]
        by_cases hcond : inv2.length < n
        · rw [if_pos hcond, if_pos (by simp only [List.length_cons]; omega)]
        · rw [if_neg hcond, if_neg (by simp only [List.length_cons]; omega)]
      | none =>
        dsimp only
        rw [schedLoop_warnings_eq cs n rest (bump counts c.id) (sched ++ [c])
          ([] ++ [fallbackMsg])]
        obtain ⟨fb, hfb, heq⟩ := ih rest (bump counts c.id) (sched ++ [c])
        refine ⟨fallbackMsg :: fb, ?_, ?_⟩
        · intro w hw
          rcases List.mem_cons.mp hw with hw | hw
          · exact hw
          · exact hfb w hw
        · rw [heq]
          have harg : (sched ++ [c]).length + rest.length
              = sched.length + (c :: rest).length := by
            simp only [List.length_append, List.length_cons, List.length_nil]
            omega
          rw [harg]
          by_cases hcond : rest.length < n
          · rw [if_pos hcond, if_pos (by simp only [List.length_cons]; omega)]
            simp
          · rw [if_neg hcond, if_neg (by simp only [List.length_cons]; omega)]
            simp

-- --- Lemmas about the inventory expansion ---

theorem expandInventory_cons (c : Card) (cs : List Card) :
    expandInventory (c :: cs)
      = List.replicate c.max_batch_size c ++ expandInventory cs := by
  simp [expandInventory]

theorem expandInventory_length (candidates : List Card) :
    (expandInventory candidates).length = sumBatch candidates := by
  induction candidates with
  | nil => rfl
  | cons c cs ih =>
    rw [expandInventory_cons]
    simp only [List.length_append, List.length_replicate, ih, sumBatch,
      List.map_cons, List.sum_cons]

theorem mem_expandInventory {c : Card} {l : List Card}
    (h : c ∈ expandInventory l) : c ∈ l := by
  simp only [expandInventory, List.mem_flatMap] at h
  obtain ⟨a, ha, hc⟩ := h
  rw [List.eq_of_mem_replicate hc]
  exact ha

theorem countId_eq_zero {l : List Card} {i : Nat}
    (h : ∀ x ∈ l, x.id ≠ i) : countId l i = 0 := by
  rw [countId, List.countP_eq_zero]
  intro a ha
  simpa using h a ha

theorem countId_expandInventory (candidates : List Card) (card : Card)
    (hnodup : (candidates.map Card.id).Nodup) (hmem : card ∈ candidates) :
    countId (expandInventory candidates) card.id = card.max_batch_size := by
  induction candidates with
  | nil => cases hmem
  | cons c cs ih =>
    simp only [List.map_cons, List.nodup_cons] at hnodup
    obtain ⟨hnotin, hnodup2⟩ := hnodup
    rw [expandInventory_cons, countId_append, countId_replicate]
    rcases List.mem_cons.mp hmem with hc | hc
    · subst hc
      rw [if_pos rfl, countId_eq_zero, Nat.add_zero]
      intro x hx he
      exact hnotin (he ▸ List.mem_map_of_mem Card.id (mem_expandInventory hx))
    · have hne : c.id ≠ card.id := by
        intro he
        exact hnotin (he ▸ List.mem_map_of_mem Card.id hc)
      rw [if_neg hne, ih hnodup2 hc, Nat.zero_add]

theorem expandInventory_eq_nil {l : List Card}
    (h : ∀ c ∈ l, c.max_batch_size = 0) : expandInventory l = [] := by
  induction l with
  | nil => rfl
  | cons c cs ih =>
    rw [expandInventory_cons, h c (List.mem_cons_self _ _)]
    exact ih (fun x hx => h x (List.mem_cons_of_mem _ hx))

-- --- The selected card satisfies the active constraints ---

theorem schedOk_repeat_bound {cs : PlanConstraints} {counts : Nat → Nat}
    {sched : List Card} {card : Card} (hk : 0 < cs.max_repeats_per_plan)
    (h : schedOk cs counts sched card = true) :
    counts card.id < cs.max_repeats_per_plan := by
  simp only [schedOk, Bool.and_eq_true, Bool.not_eq_true'] at h
  obtain ⟨-, h2⟩ := h
  rw [decide_eq_true hk, Bool.true_and] at h2
  have := of_decide_eq_false h2
  omega

theorem schedOk_not_consecutive {cs : PlanConstraints} {counts : Nat → Nat}
    {sched : List Card} {card : Card} (hnc : cs.no_consecutive = true)
    (h : schedOk cs counts sched card = true) :
    ∀ last ∈ sched.getLast?, last.id ≠ card.id := by
  simp only [schedOk, Bool.and_eq_true, Bool.not_eq_true'] at h
  obtain ⟨h1, -⟩ := h
  rw [hnc, Bool.true_and] at h1
  intro last hlast
  rw [Option.mem_def] at hlast
  rw [hlast] at h1
  exact of_decide_eq_false h1

theorem countId_append_singleton (sched : List Card) (c : Card) (i : Nat) :
    countId (sched ++ [c]) i
      = countId sched i + (if c.id = i then 1 else 0) := by
  rw [countId_append, countId_singleton]

-- --- The max-repeats invariant of the scheduler loop ---

theorem schedLoop_repeats (cs : PlanConstraints)
    (hk : 0 < cs.max_repeats_per_plan) :
    ∀ (rem : Nat) (inv : List Card) (counts : Nat → Nat) (sched : List Card),
      (∀ i, counts i = countId sched i) →
      (∀ i, countId sched i ≤ cs.max_repeats_per_plan) →
      fallbackMsg ∉ (schedLoop cs rem inv counts sched []).2 →
      ∀ i, countId (schedLoop cs rem inv counts sched []).1 i
        ≤ cs.max_repeats_per_plan := by
  intro rem
  induction rem with
  | zero => intro inv counts sched _ hbound _ i; simpa [schedLoop] using hbound i
  | succ n ih =>
    intro inv counts sched hinv hbound hnf i
    cases inv with
    | nil => simpa [schedLoop] using hbound i
    | cons c rest =>
      simp only [schedLoop] at hnf ⊢
      cases h : extractFirst (schedOk cs counts sched) (c :: rest) with
      | some pr =>
        obtain ⟨chosen, inv2⟩ := pr
        rw [h] at hnf
        dsimp only at hnf ⊢
        have hok := (extractFirst_spec h).1
        have hlt := schedOk_repeat_bound hk hok
        rw [hinv chosen.id] at hlt
        refine ih inv2 (bump counts chosen.id) (sched ++ [chosen]) ?_ ?_ hnf i
        · intro j
          simp only [bump, countId_append_singleton, hinv]
          by_cases hj : j = chosen.id
          · subst hj; simp
          · rw [if_neg hj, if_neg (Ne.symm hj), Nat.add_zero]
        · intro j
          rw [countId_append_singleton]
          by_cases hj : chosen.id = j
          · subst hj
            rw [if_pos rfl]
            omega
          · rw [if_neg hj, Nat.add_zero]
            exact hbound j
      | none =>
        rw [h] at hnf
        dsimp only at hnf
        rw [schedLoop_warnings_eq cs n rest (bump counts c.id) (sched ++ [c])
          ([] ++ [fallbackMsg])] at hnf
        exact absurd (by simp) hnf

-- --- The no-consecutive invariant of the scheduler loop ---

theorem schedLoop_chain (cs : PlanConstraints) (hnc : cs.no_consecutive = true) :
    ∀ (rem : Nat) (inv : List Card) (counts : Nat → Nat) (sched : List Card),
      sched.Chain' (fun a b : Card => a.id ≠ b.id) →
      fallbackMsg ∉ (schedLoop cs rem inv counts sched []).2 →
      (schedLoop cs rem inv counts sched []).1.Chain'
        (fun a b : Card => a.id ≠ b.id) := by
  intro rem
  induction rem with
  | zero => intro inv counts sched hchain _; simpa [schedLoop] using hchain
  | succ n ih =>
    intro inv counts sched hchain hnf
    cases inv with
    | nil => simpa [schedLoop] using hchain
    | cons c rest =>
      simp only [schedLoop] at hnf ⊢
      cases h : extractFirst (schedOk cs counts sched) (c :: rest) with
      | some pr =>
        obtain ⟨chosen, inv2⟩ := pr
        rw [h] at hnf
        dsimp only at hnf ⊢
        have hok := (extractFirst_spec h).1
        refine ih inv2 (bump counts chosen.id) (sched ++ [chosen]) ?_ hnf
        rw [List.chain'_append]
        refine ⟨hchain, List.chain'_singleton chosen, ?_⟩
        intro x hx y hy
        simp only [List.head?_cons, Option.mem_def, Option.some.injEq] at hy
        subst hy
        exact schedOk_not_consecutive hnc hok x hx
      | none =>
        rw [h] at hnf
        dsimp only at hnf
        rw [schedLoop_warnings_eq cs n rest (bump counts c.id) (sched ++ [c])
          ([] ++ [fallbackMsg])] at hnf
        exact absurd (by simp) hnf

-- --- Lemmas about the finalizer's dedup loop ---

theorem dedupIdeas_sublist : ∀ (raw : List Card) (seen : List Nat),
    (dedupIdeas raw seen).Sublist raw := by
  intro raw
  induction raw with
  | nil => intro seen; simp [dedupIdeas]
  | cons c rest ih =>
    intro seen
    rw [dedupIdeas]
    split
    · exact List.Sublist.cons₂ c (ih (c.id :: seen))
    · exact List.Sublist.cons c (ih seen)

theorem dedupIdeas_mem : ∀ (raw : List Card) (seen : List Nat) (c : Card),
    c ∈ dedupIdeas raw seen → ("joker" ∉ c.tags ∧ c.id ∉ seen) := by
  intro raw
  induction raw with
  | nil => intro seen c h; simp [dedupIdeas] at h
  | cons a rest ih =>
    intro seen c h
    rw [dedupIdeas] at h
    split at h
    case isTrue hc =>
      rcases List.mem_cons.mp h with he | he
      · subst he
        simp only [Bool.and_eq_true, Bool.not_eq_true', decide_eq_false_iff_not] at hc
        exact hc
      · have h2 := ih (a.id :: seen) c he
        exact ⟨h2.1, fun hs => h2.2 (List.mem_cons_of_mem _ hs)⟩
    case isFalse hc => exact ih seen c h

theorem dedupIdeas_ids_nodup : ∀ (raw : List Card) (seen : List Nat),
    ((dedupIdeas raw seen).map Card.id).Nodup := by
  intro raw
  induction raw with
  | nil => intro seen; simp [dedupIdeas]
  | cons a rest ih =>
    intro seen
    rw [dedupIdeas]
    split
    · simp only [List.map_cons, List.nodup_cons]
      refine ⟨?_, ih (a.id :: seen)⟩
      intro hmem
      obtain ⟨c, hc, hid⟩ := List.mem_map.mp hmem
      exact (dedupIdeas_mem rest (a.id :: seen) c hc).2
        (by rw [hid]; exact List.mem_cons_self _ _)
    · exact ih seen

theorem dedupIdeas_complete : ∀ (raw : List Card) (seen : List Nat) (c : Card),
    c ∈ raw → "joker" ∉ c.tags → c.id ∉ seen →
    c.id ∈ (dedupIdeas raw seen).map Card.id := by
  intro raw
  induction raw with
  | nil => intro seen c h; cases h
  | cons a rest ih =>
    intro seen c hmem hnj hns
    rw [dedupIdeas]
    split
    case isTrue hc =>
      rcases List.mem_cons.mp hmem with he | he
      · subst he; simp
      · by_cases hid : c.id = a.id
        · simp [hid]
        · have h2 := ih (a.id :: seen) c he hnj (by
            intro hx
            rcases List.mem_cons.mp hx with h1 | h1
            · exact hid h1
            · exact hns h1)
          simp only [List.map_cons, List.mem_cons]
          exact Or.inr h2
    case isFalse hc =>
      rcases List.mem_cons.mp hmem with he | he
      · subst he
        simp only [Bool.and_eq_true, Bool.not_eq_true', decide_eq_false_iff_not] at hc
        exact absurd ⟨hnj, hns⟩ hc
      · exact ih seen c he hnj hns

-- --- Lemmas about `updateFirst` ---

theorem updateFirst_eq_none (card_id : Nat) (f : Card → Card) :
    ∀ (l : List Card), (∀ c ∈ l, c.id ≠ card_id) →
      updateFirst card_id f l = none := by
  intro l
  induction l with
  | nil => intro _; rfl
  | cons c rest ih =>
    intro h
    rw [updateFirst, if_neg (h c (List.mem_cons_self _ _)),
      ih (fun x hx => h x (List.mem_cons_of_mem _ hx))]

theorem updateFirst_eq_some (card_id : Nat) (f : Card → Card) :
    ∀ (pre : List Card) (c : Card) (post : List Card),
      (∀ x ∈ pre, x.id ≠ card_id) → c.id = card_id →
      updateFirst card_id f (pre ++ c :: post)
        = some (f c, pre ++ f c :: post) := by
  intro pre
  induction pre with
  | nil =>
    intro c post _ hc
    simp [updateFirst, hc]
  | cons a as ih =>
    intro c post hpre hc
    rw [List.cons_append, updateFirst,
      if_neg (hpre a (List.mem_cons_self _ _)),
      ih c post (fun x hx => hpre x (List.mem_cons_of_mem _ hx)) hc]
    simp

-- --- Correctness of the substring search ---

theorem startsWithChars_iff : ∀ (pat s : List Char),
    startsWithChars pat s = true ↔ ∃ r, s = pat ++ r := by
  intro pat
  induction pat with
  | nil => intro s; simp [startsWithChars]
  | cons p ps ih =>
    intro s
    cases s with
    | nil => simp [startsWithChars]
    | cons c cs =>
      rw [startsWithChars]
      simp only [Bool.and_eq_true, beq_iff_eq, ih cs]
      constructor
      · rintro ⟨hpc, r, hr⟩
        exact ⟨r, by rw [hpc, hr]; rfl⟩
      · rintro ⟨r, hr⟩
        rw [List.cons_append] at hr
        injection hr with h1 h2
        exact ⟨h1.symm, r, h2⟩

theorem strHasSub_iff : ∀ (pat s : List Char),
    strHasSub pat s = true ↔ ∃ l r, s = l ++ pat ++ r := by
  intro pat s
  induction s with
  | nil =>
    rw [strHasSub]
    simp only [List.isEmpty_iff]
    constructor
    · intro h
      exact ⟨[], [], by simp [h]⟩
    · rintro ⟨l, r, h⟩
      have h2 := h.symm
      simp only [List.append_assoc, List.append_eq_nil] at h2
      exact h2.2.1
  | cons c cs ih =>
    rw [strHasSub]
    simp only [Bool.or_eq_true, startsWithChars_iff, ih]
    constructor
    · rintro (⟨r, hr⟩ | ⟨l, r, hlr⟩)
      · exact ⟨[], r, by simp [hr]⟩
      · exact ⟨c :: l, r, by simp [hlr]⟩
    · rintro ⟨l, r, h⟩
      cases l with
      | nil => exact Or.inl ⟨r, by simpa using h⟩
      | cons a as =>
        right
        simp only [List.cons_append, List.append_assoc] at h
        injection h with h1 h2
        exact ⟨as, r, by simp [h2]⟩

theorem not_all_notMem_iff (a b : List String) :
    (¬ ∀ x ∈ a, x ∉ b) ↔ ∃ x ∈ a, x ∈ b := by
  push_neg
  simp

-- --- The filter predicate agrees with the spec's five-way conjunction ---

theorem cardMatches_iff (f : CardFilters) (card : Card) :
    cardMatches f card = true ↔ specFilterPred f card := by
  obtain ⟨nc, tf, tm, igf, im, aj, bm⟩ := f
  rw [cardMatches, specFilterPred]
  simp only [Bool.and_eq_true, Bool.or_eq_true, Bool.not_eq_true',
    decide_eq_false_iff_not, decide_eq_true_eq, subsetB, disjointB,
    strHasSub_iff, SpecSubstrOf]
  cases bm <;> cases tm <;> cases im <;>
    simp [String.isEmpty_iff, List.isEmpty_iff, not_all_notMem_iff, and_assoc]

-- --- Claim theorems ---

/-- C1 (counterexample): on the Tacos scenario (one card, id 1, empty tags,
batch 2; 3 requested meals with `no_consecutive`), `generate_plan` returns
the idea list `[tacosCard]` with THREE warnings — the fallback warning, the
truncation warning, and the finalizer's jokers/duplicates warning — not the
two warnings the claim states. -/
theorem tacos_scenario_two_warnings_refuted :
    tacosStore.generate_plan id tacosConstraints = .ok tacosExpected
    ∧ tacosExpected.warnings.length ≠ 2 :=
  ⟨rfl, by decide⟩

/-- C1 (amended): on the Tacos scenario and for every shuffle of the
two-copy inventory, `generate_plan` succeeds with the idea list
`[tacosCard]` and exactly three warnings: the fallback warning, the
truncation warning (`stopped at 2 meals`) and the jokers/duplicates
warning. -/
theorem tacos_scenario_three_warnings :
    ∀ (shuffle : List Card → List Card),
      List.Perm (shuffle (expandInventory [tacosCard]))
        (expandInventory [tacosCard]) →
      tacosStore.generate_plan shuffle tacosConstraints = .ok tacosExpected := by
  intro shuffle hperm
  have hperm2 : List.Perm (shuffle [tacosCard, tacosCard])
      (List.replicate 2 tacosCard) := hperm
  have hs : shuffle [tacosCard, tacosCard] = [tacosCard, tacosCard] :=
    List.perm_replicate.mp hperm2
  calc tacosStore.generate_plan shuffle tacosConstraints
      = .ok (finalizeIdeas (schedLoop tacosConstraints 3
          (shuffle [tacosCard, tacosCard]) (fun _ => 0) [] [])) := rfl
    _ = .ok tacosExpected := by rw [hs]; rfl

/-- C1 (witness): the amended statement applied to the identity shuffle. -/
theorem tacos_scenario_three_warnings_witness :
    tacosStore.generate_plan id tacosConstraints = .ok tacosExpected :=
  tacos_scenario_three_warnings id (List.Perm.refl _)

/-- C2: the candidate filter returns exactly the cards satisfying the
conjunction of the five spec predicates, and the fully permissive
specification returns the full collection. -/
theorem find_candidates_matches_spec :
    (∀ (m : MealzPlug) (f : CardFilters) (card : Card),
        card ∈ m.find_candidates f ↔ card ∈ m.cards ∧ specFilterPred f card)
    ∧ (∀ (m : MealzPlug) (tm im : FilterMode),
        m.find_candidates (permissiveFilters tm im) = m.cards) := by
  constructor
  · intro m f card
    rw [MealzPlug.find_candidates, List.mem_filter, cardMatches_iff]
  · intro m tm im
    rw [MealzPlug.find_candidates, List.filter_eq_self]
    intro c _
    cases tm <;> cases im <;> simp [cardMatches, permissiveFilters] <;>
      exact Or.inl rfl

/-- C2 (witness): the filter characterization evaluated on the Tacos store,
and the permissive filter returning the whole store. -/
theorem find_candidates_matches_spec_witness :
    (tacosCard ∈ tacosStore.find_candidates defaultFilters
      ↔ tacosCard ∈ tacosStore.cards ∧ specFilterPred defaultFilters tacosCard)
    ∧ tacosStore.find_candidates (permissiveFilters .Any .Any)
        = tacosStore.cards :=
  ⟨find_candidates_matches_spec.1 tacosStore defaultFilters tacosCard,
   find_candidates_matches_spec.2 tacosStore .Any .Any⟩

/-- C3: for a non-empty candidate list and any shuffle of the expanded
inventory, the raw schedule's length is exactly
`min number_of_meals (sum of max batch sizes)`, and the truncation warning
naming that final length is present exactly when the inventory was smaller
than the requested meal count. -/
theorem raw_schedule_length_and_truncation :
    ∀ (shuffle : List Card → List Card) (candidates : List Card)
      (cs : PlanConstraints),
      candidates ≠ [] →
      List.Perm (shuffle (expandInventory candidates))
        (expandInventory candidates) →
      (build_raw_schedule shuffle candidates cs).1.length
          = min cs.number_of_meals (sumBatch candidates)
      ∧ (truncMsg (build_raw_schedule shuffle candidates cs).1.length
            ∈ (build_raw_schedule shuffle candidates cs).2
          ↔ sumBatch candidates < cs.number_of_meals) := by
  intro shuffle candidates cs hne hperm
  have hlen : (shuffle (expandInventory candidates)).length
      = sumBatch candidates := by
    rw [hperm.length_eq, expandInventory_length]
  simp only [build_raw_schedule]
  have hL : (schedLoop cs cs.number_of_meals
      (shuffle (expandInventory candidates)) (fun _ => 0) [] []).1.length
      = min cs.number_of_meals (sumBatch candidates) := by
    rw [schedLoop_length, hlen]
    simp
  obtain ⟨fb, hfb, heq⟩ := schedLoop_warnings_struct cs cs.number_of_meals
    (shuffle (expandInventory candidates)) (fun _ => 0) []
  simp only [List.length_nil, Nat.zero_add] at heq
  rw [hlen] at heq
  refine ⟨hL, ?_⟩
  rw [heq, hL]
  by_cases hcond : sumBatch candidates < cs.number_of_meals
  · rw [if_pos hcond]
    constructor
    · intro _; exact hcond
    · intro _
      have hmin : min cs.number_of_meals (sumBatch candidates)
          = sumBatch candidates := by omega
      rw [hmin]
      simp
  · rw [if_neg hcond]
    constructor
    · intro hmem
      exact absurd (hfb _ hmem).symm (fallbackMsg_ne_truncMsg _)
    · intro h; exact absurd h hcond

/-- C3 (witness): the length/truncation characterization on the Tacos
scenario (3 requested, inventory of 2). -/
theorem raw_schedule_length_and_truncation_witness :
    (build_raw_schedule id [tacosCard] tacosConstraints).1.length
        = min tacosConstraints.number_of_meals (sumBatch [tacosCard])
    ∧ (truncMsg (build_raw_schedule id [tacosCard] tacosConstraints).1.length
          ∈ (build_raw_schedule id [tacosCard] tacosConstraints).2
        ↔ sumBatch [tacosCard] < tacosConstraints.number_of_meals) :=
  raw_schedule_length_and_truncation id [tacosCard] tacosConstraints
    (by decide) (List.Perm.refl _)

/-- C4: when `max_repeats_per_plan = k > 0` and the run emitted no fallback
warning, every identifier occurs at most `k` times in the raw schedule,
whatever the inventory order. -/
theorem raw_schedule_max_repeats :
    ∀ (shuffle : List Card → List Card) (candidates : List Card)
      (cs : PlanConstraints) (k : Nat),
      cs.max_repeats_per_plan = k → 0 < k →
      fallbackMsg ∉ (build_raw_schedule shuffle candidates cs).2 →
      ∀ i, countId (build_raw_schedule shuffle candidates cs).1 i ≤ k := by
  intro shuffle candidates cs k hk hk0 hnf i
  subst hk
  simp only [build_raw_schedule] at hnf ⊢
  exact schedLoop_repeats cs hk0 cs.number_of_meals _ (fun _ => 0) []
    (fun j => by simp [countId]) (fun j => by simp [countId]) hnf i

/-- C4 (witness): a fallback-free run with `k = 1` in which identifier 1
occurs at most once. -/
theorem raw_schedule_max_repeats_witness :
    fallbackMsg ∉ (build_raw_schedule id [tacosCard] simpleConstraints).2
    ∧ countId (build_raw_schedule id [tacosCard] simpleConstraints).1 1 ≤ 1 :=
  ⟨by decide,
   raw_schedule_max_repeats id [tacosCard] simpleConstraints 1 rfl
     (by decide) (by decide) 1⟩

/-- C5: when `no_consecutive = true` and the run emitted no fallback
warning, adjacent raw-schedule entries always have distinct identifiers,
whatever the inventory order. -/
theorem raw_schedule_no_consecutive :
    ∀ (shuffle : List Card → List Card) (candidates : List Card)
      (cs : PlanConstraints),
      cs.no_consecutive = true →
      fallbackMsg ∉ (build_raw_schedule shuffle candidates cs).2 →
      (build_raw_schedule shuffle candidates cs).1.Chain'
        (fun a b : Card => a.id ≠ b.id) := by
  intro shuffle candidates cs hnc hnf
  simp only [build_raw_schedule] at hnf ⊢
  exact schedLoop_chain cs hnc cs.number_of_meals _ (fun _ => 0) []
    List.chain'_nil hnf

/-- C5 (witness): a fallback-free no-consecutive run over two cards. -/
theorem raw_schedule_no_consecutive_witness :
    fallbackMsg ∉ (build_raw_schedule id [tacosCard, pastaCard] pairConstraints).2
    ∧ (build_raw_schedule id [tacosCard, pastaCard] pairConstraints).1.Chain'
        (fun a b : Card => a.id ≠ b.id) :=
  ⟨by decide,
   raw_schedule_no_consecutive id [tacosCard, pastaCard] pairConstraints
     rfl (by decide)⟩

/-- C6: the finalizer keeps, in order, exactly the first occurrence of each
identifier among the non-joker cards: the result is a sublist of the raw
schedule (never reordered), has no duplicate identifiers, no joker cards,
is never longer than the raw schedule, contains every non-joker identifier
of the raw schedule, and the fixed jokers/duplicates warning is appended
exactly when entries were dropped. -/
theorem idea_plan_finalizer_spec :
    ∀ (raw : List Card) (warns : List String),
      (finalizeIdeas (raw, warns)).plan.schedule = .Ideas (dedupIdeas raw [])
      ∧ (dedupIdeas raw []).Sublist raw
      ∧ ((dedupIdeas raw []).map Card.id).Nodup
      ∧ (∀ c ∈ dedupIdeas raw [], "joker" ∉ c.tags)
      ∧ (dedupIdeas raw []).length ≤ raw.length
      ∧ (∀ c ∈ raw, "joker" ∉ c.tags → c.id ∈ (dedupIdeas raw []).map Card.id)
      ∧ (finalizeIdeas (raw, warns)).warnings
          = (if (dedupIdeas raw []).length < raw.length
             then warns ++ [dedupMsg] else warns) := by
  intro raw warns
  refine ⟨rfl, dedupIdeas_sublist raw [], dedupIdeas_ids_nodup raw [], ?_,
    (dedupIdeas_sublist raw []).length_le, ?_, rfl⟩
  · intro c hc
    exact (dedupIdeas_mem raw [] c hc).1
  · intro c hc hnj
    exact dedupIdeas_complete raw [] c hc hnj (by simp)

/-- C6 (witness): the finalizer on a raw schedule holding a joker and a
duplicate. -/
theorem idea_plan_finalizer_spec_witness :
    (finalizeIdeas ([tacosCard, jokerCard, tacosCard], [])).plan.schedule
        = .Ideas (dedupIdeas [tacosCard, jokerCard, tacosCard] [])
    ∧ (dedupIdeas [tacosCard, jokerCard, tacosCard] []).length
        ≤ [tacosCard, jokerCard, tacosCard].length :=
  ⟨(idea_plan_finalizer_spec [tacosCard, jokerCard, tacosCard] []).1,
   (idea_plan_finalizer_spec [tacosCard, jokerCard, tacosCard] []).2.2.2.2.1⟩

/-- C7: `generate_plan` returns the NoCandidates error exactly when the
candidate filter produced the empty set; otherwise it succeeds with the
finalized plan (so an empty filter result aborts with no partial result and
no warnings). -/
theorem generate_plan_no_candidates_iff :
    ∀ (m : MealzPlug) (shuffle : List Card → List Card) (cs : PlanConstraints),
      (m.generate_plan shuffle cs
          = .error "No cards match the specified filters."
        ↔ m.find_candidates cs.filters = [])
      ∧ (m.find_candidates cs.filters ≠ [] →
          m.generate_plan shuffle cs
            = .ok (finalizeIdeas (build_raw_schedule shuffle
                (m.find_candidates cs.filters) cs))) := by
  intro m shuffle cs
  by_cases h : m.find_candidates cs.filters = []
  · constructor
    · simp [MealzPlug.generate_plan, h]
    · intro hne
      exact absurd h hne
  · have hok : m.generate_plan shuffle cs
        = .ok (finalizeIdeas (build_raw_schedule shuffle
            (m.find_candidates cs.filters) cs)) := by
      simp only [MealzPlug.generate_plan, build_idea_plan]
      rw [if_neg (by simpa [List.isEmpty_iff] using h)]
    constructor
    · rw [hok]
      simp [h]
    · intro _
      exact hok

/-- C7 (witness): the vegan-tag scenario — no card carries `"vegan"`, so
`generate_plan` returns the NoCandidates error. -/
theorem generate_plan_no_candidates_iff_witness :
    tacosStore.generate_plan id veganConstraints
      = .error "No cards match the specified filters." :=
  (generate_plan_no_candidates_iff tacosStore id veganConstraints).1.mpr
    (by decide)

/-- C8: each filtered candidate with max batch size `b` contributes exactly
`b` copies of its identifier to the expanded inventory, and any permutation
of the inventory preserves these per-identifier counts. -/
theorem inventory_count_invariant :
    ∀ (candidates : List Card) (card : Card) (shuffled : List Card),
      (candidates.map Card.id).Nodup → card ∈ candidates →
      List.Perm shuffled (expandInventory candidates) →
      countId shuffled card.id = card.max_batch_size := by
  intro candidates card shuffled hnodup hmem hperm
  rw [countId_perm hperm, countId_expandInventory candidates card hnodup hmem]

/-- C8 (witness): the count invariant for the Tacos card (batch size 2) in
its own expanded inventory. -/
theorem inventory_count_invariant_witness :
    countId (expandInventory [tacosCard, pastaCard]) tacosCard.id
      = tacosCard.max_batch_size :=
  inventory_count_invariant [tacosCard, pastaCard] tacosCard
    (expandInventory [tacosCard, pastaCard]) (by decide) (by decide)
    (List.Perm.refl _)

/-- C9: `update_card` on an absent identifier returns the NotFound error and
leaves the store completely unchanged; on the first card carrying the
identifier it replaces exactly the supplied fields and leaves every other
card untouched. -/
theorem update_card_not_found_and_partial_update :
    ∀ (m : MealzPlug) (card_id : Nat) (nn : Option String)
      (nt ni : Option (List String)) (nb : Option Nat),
      ((∀ c ∈ m.cards, c.id ≠ card_id) →
        m.update_card card_id nn nt ni nb = (.error (notFoundMsg card_id), m))
      ∧ (∀ (pre : List Card) (c : Card) (post : List Card),
          m.cards = pre ++ c :: post → (∀ x ∈ pre, x.id ≠ card_id) →
          c.id = card_id →
          m.update_card card_id nn nt ni nb
            = (.ok (applyUpdate c nn nt ni nb),
               { m with cards := pre ++ applyUpdate c nn nt ni nb :: post })) := by
  intro m card_id nn nt ni nb
  constructor
  · intro h
    rw [MealzPlug.update_card, updateFirst_eq_none card_id _ m.cards h]
  · intro pre c post hsplit hpre hc
    rw [MealzPlug.update_card, hsplit,
      updateFirst_eq_some card_id _ pre c post hpre hc]

/-- C9 (witness): updating the absent identifier 5 errs and leaves the
Tacos store untouched; updating identifier 1 replaces only the supplied
batch size. -/
theorem update_card_not_found_and_partial_update_witness :
    tacosStore.update_card 5 none none none none
        = (.error (notFoundMsg 5), tacosStore)
    ∧ tacosStore.update_card 1 none none none (some 3)
        = (.ok (applyUpdate tacosCard none none none (some 3)),
           { tacosStore with
             cards := [] ++ applyUpdate tacosCard none none none (some 3) :: [] }) :=
  ⟨(update_card_not_found_and_partial_update tacosStore 5
      none none none none).1 (by decide),
   (update_card_not_found_and_partial_update tacosStore 1
      none none none (some 3)).2 [] tacosCard [] rfl (by simp) rfl⟩

/-- C10: `add_card` (and the update path) accepts `max_batch_size = 0`
without validation; such cards expand to zero inventory copies, so when all
candidates have batch size 0 and at least one meal is requested,
`generate_plan` still succeeds with an empty idea list and the
`stopped at 0 meals` truncation warning. -/
theorem zero_batch_accepted_and_empty_plan :
    ∀ (m : MealzPlug) (name : String) (tags ingredients : List String)
      (shuffle : List Card → List Card) (cs : PlanConstraints),
      m.find_candidates cs.filters ≠ [] →
      (∀ c ∈ m.find_candidates cs.filters, c.max_batch_size = 0) →
      0 < cs.number_of_meals →
      List.Perm (shuffle (expandInventory (m.find_candidates cs.filters)))
        (expandInventory (m.find_candidates cs.filters)) →
      (m.add_card name tags ingredients (some 0)).1
          = .ok { id := m.next_id, name := name, tags := tags,
                  ingredients := ingredients, max_batch_size := 0 }
      ∧ (∀ c : Card, (applyUpdate c none none none (some 0)).max_batch_size = 0)
      ∧ m.generate_plan shuffle cs
          = .ok { plan := { schedule := .Ideas [] },
                  warnings := [truncMsg 0] } := by
  intro m name tags ingredients shuffle cs hne hzero hn hperm
  refine ⟨rfl, fun c => rfl, ?_⟩
  have hexp : expandInventory (m.find_candidates cs.filters) = [] :=
    expandInventory_eq_nil hzero
  rw [hexp] at hperm
  have hs : shuffle (expandInventory (m.find_candidates cs.filters)) = [] := by
    rw [hexp]
    exact List.perm_nil.mp hperm
  obtain ⟨N, hN⟩ : ∃ N, cs.number_of_meals = N + 1 :=
    ⟨cs.number_of_meals - 1, by omega⟩
  simp only [MealzPlug.generate_plan, build_idea_plan]
  rw [if_neg (by simpa [List.isEmpty_iff] using hne)]
  simp only [build_raw_schedule]
  rw [hs, hN]
  rfl

/-- C10 (witness): the zero-batch store produces an empty plan with the
`stopped at 0 meals` warning, and `add_card` accepts batch size 0. -/
theorem zero_batch_accepted_and_empty_plan_witness :
    (zeroStore.add_card "Zero" [] [] (some 0)).1
        = .ok { id := 8, name := "Zero", tags := [], ingredients := [],
                max_batch_size := 0 }
    ∧ zeroStore.generate_plan id tacosConstraints
        = .ok { plan := { schedule := .Ideas [] },
                warnings := [truncMsg 0] } :=
  ⟨(zero_batch_accepted_and_empty_plan zeroStore "Zero" [] [] id
      tacosConstraints (by decide) (by decide) (by decide)
      (List.Perm.refl _)).1,
   (zero_batch_accepted_and_empty_plan zeroStore "Zero" [] [] id
      tacosConstraints (by decide) (by decide) (by decide)
      (List.Perm.refl _)).2.2⟩

end Orgzr
